import Mathlib

/-!
Verification development for the clean-code-checker repository.

The two engines under scrutiny live in
`scripts/analyze_code.py` (class `CleanCodeAnalyzer`) and
`scripts/refactor_code.py` (class `CleanCodeRefactorer`).  Both operate on
raw text, line by line.  We embed them shallowly: a Python `str` becomes a
`List Char` (named `Str`), a file's content is passed in directly instead of
being read from disk, and file writes performed by the refactorer are
returned as an explicit list of (path, content) pairs in the order the
source performs them.  Messages printed to stdout by the per-rule exception
handlers are returned as an explicit list of warning strings.
-/

namespace CCC

set_option maxRecDepth 200000

/-- Python strings are embedded as lists of characters. -/
abbrev Str := List Char

/-- Convert a Lean string literal to the embedded representation. -/
def ofS (s : String) : Str := s.data

/-- Whitespace test used by Python `strip`, `rstrip`, `lstrip` (ASCII range,
which covers every string the source manipulates). -/
def isSpaceC (c : Char) : Bool :=
  c = ' ' ∨ c = '\t' ∨ c = '\n' ∨ c = '\r' ∨ c = Char.ofNat 11 ∨ c = Char.ofNat 12

/-- Word character for the regex `\b` boundary: `[A-Za-z0-9_]`. -/
def isWordC (c : Char) : Bool := c.isAlpha ∨ c.isDigit ∨ c = '_'

/-- Python `str.lstrip()`. -/
def lstripL (l : Str) : Str := l.dropWhile isSpaceC

/-- Python `str.rstrip()`. -/
def rstripL (l : Str) : Str := (l.reverse.dropWhile isSpaceC).reverse

/-- Python `str.strip()`. -/
def trimL (l : Str) : Str := rstripL (lstripL l)

/-- Python `len(line) - len(line.lstrip())`, the leading-whitespace width. -/
def indentOf (l : Str) : Nat := (l.takeWhile isSpaceC).length

/-- Python `str.lower()` (ASCII). -/
def lowerL (l : Str) : Str := l.map Char.toLower

/-- Does the list start with the given pattern (Python `str.startswith`)? -/
def startsWithL : Str → Str → Bool
  | [], _ => true
  | _ :: _, [] => false
  | p :: ps, c :: cs => p = c ∧ startsWithL ps cs

/-- Python `str.endswith`. -/
def endsWithL (pat l : Str) : Bool := startsWithL pat.reverse l.reverse

/-- Python's `in` operator on strings: substring containment. -/
def containsSub (pat : Str) : Str → Bool
  | [] => pat = []
  | c :: rest => startsWithL pat (c :: rest) ∨ containsSub pat rest

/-- Python `str.count(ch)` for a single character. -/
def countC (ch : Char) (l : Str) : Nat := (l.filter (fun c => c = ch)).length

/-- Python `str.split(sep)` for a single-character separator. -/
def splitOnC (sep : Char) : Str → List Str
  | [] => [[]]
  | c :: rest =>
    if c = sep then [] :: splitOnC sep rest
    else
      match splitOnC sep rest with
      | [] => [[c]]
      | s :: ss => (c :: s) :: ss

/-- Python `sep.join(parts)`. -/
def joinSep (sep : Str) : List Str → Str
  | [] => []
  | [p] => p
  | p :: ps => p ++ sep ++ joinSep sep ps

/-- Concatenation of a list of strings (Python `writelines` semantics). -/
def joinL (ls : List Str) : Str := ls.foldr (· ++ ·) []

/-- Python `file.readlines()`: split the content after each newline,
keeping the newline characters. -/
def readlinesL : Str → List Str
  | [] => []
  | c :: rest =>
    if c = '\n' then [c] :: readlinesL rest
    else
      match readlinesL rest with
      | [] => [[c]]
      | s :: ss => (c :: s) :: ss

/-- Numeric value of a run of decimal digits (Python `int(...)`). -/
def numOf (digits : Str) : Nat := digits.foldl (fun a c => a * 10 + (c.toNat - 48)) 0

/-- Python `str(n)` for a natural number. -/
def natStr (n : Nat) : Str := Nat.toDigits 10 n

/-- Pair each element with its index starting from `k`
(Python `enumerate(xs, k)`). -/
def enumFrom {α : Type} (k : Nat) : List α → List (Nat × α)
  | [] => []
  | l :: ls => (k, l) :: enumFrom (k + 1) ls

/-- The `Violation` dataclass of `analyze_code.py`. -/
structure Violation where
  rule_category : Str
  rule_name : Str
  severity : Str
  line_number : Nat
  description : Str
  suggestion : Str
  code_snippet : Str
deriving DecidableEq

/-!
Regex scanning.  The two naming rules and the two rewriting rules of the
refactorer use patterns of the shape `\b(kw1|kw2|...)\s+(IDENT)`, scanned
with `re.finditer` / rewritten with `re.sub` (non-overlapping matches, left
to right).  `tryKwIdent` attempts such a match at the start of the input:
the caller guarantees the word boundary.  It returns the keyword, the
identifier, and the number of consumed characters minus one.
-/

/-- Match `(kw)\s+(first identRest*)` at the start of `l`, trying the
keywords in alternation order.  Returns `(kw, ident, consumed - 1)`. -/
def tryKwIdent (kws : List Str) (firstOk identOk : Char → Bool) (l : Str) :
    Option (Str × Str × Nat) :=
  kws.findSome? fun kw =>
    if startsWithL kw l then
      let r1 := l.drop kw.length
      let ws := r1.takeWhile isSpaceC
      if ws = [] then none
      else
        match r1.drop ws.length with
        | [] => none
        | i0 :: irest =>
          if firstOk i0 then
            let ident := i0 :: irest.takeWhile identOk
            some (kw, ident, kw.length + ws.length + ident.length - 1)
          else none
    else none

/-- All matches of `\b(kw1|...)\s+(IDENT)` in a line, as (keyword,
identifier) pairs, in left-to-right order (`re.finditer`).  The boolean
tracks whether the previous character was a word character (for `\b`).
The first argument is fuel: every step consumes at least one character, so
starting the fuel at the length of the string (`scanKwIdent`) the fuel can
never run out; it only makes the recursion structural. -/
def scanKwIdentGo (kws : List Str) (firstOk identOk : Char → Bool) :
    Nat → Bool → Str → List (Str × Str)
  | 0, _, _ => []
  | _, _, [] => []
  | fuel + 1, prevWord, c :: rest =>
    match (if prevWord then none else tryKwIdent kws firstOk identOk (c :: rest)) with
    | some (kw, ident, k) =>
      (kw, ident) :: scanKwIdentGo kws firstOk identOk fuel true ((c :: rest).drop (k + 1))
    | none => scanKwIdentGo kws firstOk identOk fuel (isWordC c) rest

/-- Entry point of the match scanner; the `false` seeds the `\b` state at
the start of the line. -/
def scanKwIdent (kws : List Str) (firstOk identOk : Char → Bool) (line : Str) :
    List (Str × Str) :=
  scanKwIdentGo kws firstOk identOk line.length false line

/-- Rewrite every match of `\b(kw1|...)\s+(IDENT)` to the keyword, one
space, and the converted identifier (the `re.sub` replacement lambdas of
`_fix_naming_conventions`).  Fueled like `scanKwIdentGo`; when the fuel
hits zero the remaining characters are kept unchanged (unreachable when
seeded with the length of the string). -/
def subKwIdentGo (kws : List Str) (firstOk identOk : Char → Bool) (conv : Str → Str) :
    Nat → Bool → Str → Str
  | 0, _, l => l
  | _, _, [] => []
  | fuel + 1, prevWord, c :: rest =>
    match (if prevWord then none else tryKwIdent kws firstOk identOk (c :: rest)) with
    | some (kw, ident, k) =>
      (kw ++ [' '] ++ conv ident) ++
        subKwIdentGo kws firstOk identOk conv fuel true ((c :: rest).drop (k + 1))
    | none => c :: subKwIdentGo kws firstOk identOk conv fuel (isWordC c) rest

/-- Entry point of the rewriting scanner. -/
def subKwIdent (kws : List Str) (firstOk identOk : Char → Bool) (conv : Str → Str)
    (line : Str) : Str :=
  subKwIdentGo kws firstOk identOk conv line.length false line

/-- Identifier-tail character class `[a-zA-Z0-9_]`. -/
def identTailC (c : Char) : Bool := c.isAlpha ∨ c.isDigit ∨ c = '_'

/-- Lower-case ASCII letter `[a-z]`. -/
def lowerAlphaC (c : Char) : Bool := 'a' ≤ c ∧ c ≤ 'z'

/-- Upper-case ASCII letter `[A-Z]`. -/
def upperAlphaC (c : Char) : Bool := 'A' ≤ c ∧ c ≤ 'Z'

/-- Identifier-head character class `[a-zA-Z_]`. -/
def identHeadC (c : Char) : Bool := lowerAlphaC c ∨ upperAlphaC c ∨ c = '_'

/-- The matches of `\b\d+\b` in a line, as numeric values, in order
(`re.finditer` with `int(match.group())`).  A maximal run of digits is a
match exactly when it is not adjacent to a word character on either side.
The first argument says whether the previous character was a word
character; the second accumulates the digit run currently being scanned
(when that run started at a word boundary). -/
def scanNums : Bool → Option Str → Str → List Nat
  | _, none, [] => []
  | _, some run, [] => [numOf run]
  | prevWord, acc, c :: rest =>
    if c.isDigit then
      match acc with
      | some run => scanNums true (some (run ++ [c])) rest
      | none =>
        if prevWord then scanNums true none rest
        else scanNums true (some [c]) rest
    else
      match acc with
      | some run =>
        if isWordC c then scanNums true none rest
        else numOf run :: scanNums (isWordC c) none rest
      | none => scanNums (isWordC c) none rest

/-- Numbers the magic-number rule extracts from a line. -/
def extractNums (line : Str) : List Nat := scanNums false none line

/-!
The ten detector rules of `CleanCodeAnalyzer`, in the order of the
`self.rules` dict.  Each has the signature of the Python methods:
`(language, content, lines) → violations appended in emission order`.
-/

/-- Is the language one of the brace-block languages (`js`, `ts`)? -/
def isJsTs (lang : Str) : Bool := lang = ofS "js" ∨ lang = ofS "ts"

/-- `_check_naming_conventions`. -/
def checkNamingConventions (lang : Str) (_content : Str) (lines : List Str) :
    List Violation :=
  if isJsTs lang then
    (enumFrom 1 lines).flatMap fun (i, line) =>
      (scanKwIdent [ofS "let", ofS "const", ofS "var", ofS "function"]
          lowerAlphaC identTailC line).filterMap fun (_kw, name) =>
        if containsSub (ofS "_") name then
          some ⟨ofS "naming", ofS "camelCaseConvention", ofS "error", i,
            ofS "Use camelCase: " ++ name,
            ofS "Change variable/function name to camelCase", trimL line⟩
        else none
  else if lang = ofS "python" then
    (enumFrom 1 lines).flatMap fun (i, line) =>
      (scanKwIdent [ofS "def", ofS "class"] identHeadC identTailC line).filterMap
        fun (_kw, name) =>
          if name ≠ lowerL name ∧ ¬ containsSub (ofS "_") name then
            some ⟨ofS "naming", ofS "snakeCaseConvention", ofS "error", i,
              ofS "Use snake_case: " ++ name,
              ofS "Change function/class name to snake_case", trimL line⟩
          else none
  else []

/-- Net brace count of a line: the count of open braces minus the count of
close braces (`_check_function_design`, JS branch). -/
def braceDelta (l : Str) : Int := (countC '{' l : Int) - (countC '}' l : Int)

/-- The inner `while` loop of the JS branch of `_check_function_design`:
keep taking lines while the running brace count stays positive. -/
def jsFuncBody : Int → List Str → List Str
  | _, [] => []
  | bc, l :: ls => if bc > 0 then l :: jsFuncBody (bc + braceDelta l) ls else []

/-- The inner `while` loop of the Python branch of `_check_function_design`:
keep taking lines until a non-blank line at or below the start indent. -/
def pyFuncBody (indent : Nat) : List Str → List Str
  | [] => []
  | l :: ls =>
    if trimL l ≠ [] ∧ indentOf l ≤ indent then []
    else l :: pyFuncBody indent ls

/-- The per-line work of `_check_function_design`; `i` is the 1-based
number of `line` and `rest` the lines after it (`lines[i:]`). -/
def checkFunctionDesignLine (lang : Str) (i : Nat) (line : Str) (rest : List Str) :
    List Violation :=
  if isJsTs lang then
    if containsSub (ofS "function ") line then
      let funcLines := line :: jsFuncBody (braceDelta line) rest
      if funcLines.length > 20 then
        [⟨ofS "functions", ofS "functionLength", ofS "warning", i - 1,
          ofS "Function is too long (" ++ natStr funcLines.length ++ ofS " lines)",
          ofS "Break down into smaller functions",
          (joinSep (ofS "\n") funcLines).take 100 ++ ofS "..."⟩]
      else []
    else []
  else if lang = ofS "python" then
    if startsWithL (ofS "def ") (trimL line) then
      let funcLines := pyFuncBody (indentOf line) rest
      if funcLines.length > 20 then
        [⟨ofS "functions", ofS "functionLength", ofS "warning", i - 1,
          ofS "Function is too long (" ++ natStr funcLines.length ++ ofS " lines)",
          ofS "Break down into smaller functions",
          joinSep (ofS "\n") (funcLines.take 3) ++ ofS "..."⟩]
      else []
    else []
  else []

/-- Iterate `checkFunctionDesignLine` over the file. -/
def checkFunctionDesignGo (lang : Str) : Nat → List Str → List Violation
  | _, [] => []
  | i, line :: rest =>
    checkFunctionDesignLine lang i line rest ++ checkFunctionDesignGo lang (i + 1) rest

/-- `_check_function_design`. -/
def checkFunctionDesign (lang : Str) (_content : Str) (lines : List Str) :
    List Violation :=
  checkFunctionDesignGo lang 1 lines

/-- `_check_comments`. -/
def checkComments (_lang : Str) (_content : Str) (lines : List Str) : List Violation :=
  (enumFrom 1 lines).flatMap fun (i, line) =>
    let stripped := trimL line
    if startsWithL (ofS "//") stripped ∨ startsWithL (ofS "#") stripped then
      let comment := trimL (stripped.drop 1)
      if lowerL comment ∈ [ofS "todo", ofS "fixme", ofS "hack"] ∨
          startsWithL (ofS "this function") (lowerL comment) ∨
          startsWithL (ofS "this variable") (lowerL comment) then
        [⟨ofS "comments", ofS "uselessComment", ofS "info", i,
          ofS "Potentially useless comment: " ++ comment,
          ofS "Remove or make the comment more meaningful", trimL line⟩]
      else []
    else []

/-- `_check_formatting`. -/
def checkFormatting (_lang : Str) (_content : Str) (lines : List Str) : List Violation :=
  (enumFrom 1 lines).flatMap fun (i, line) =>
    (if line.length > 100 then
      [⟨ofS "formatting", ofS "lineLength", ofS "warning", i,
        ofS "Line too long (" ++ natStr line.length ++ ofS " characters)",
        ofS "Break line or shorten variable names", trimL line⟩]
    else []) ++
    (if rstripL line ≠ line then
      [⟨ofS "formatting", ofS "trailingWhitespace", ofS "info", i,
        ofS "Line has trailing whitespace",
        ofS "Remove trailing whitespace", trimL line⟩]
    else [])

/-- The inner `while` loop of the JS branch of `_check_error_handling`,
scanning the lines after a `catch` line; `j` is the Python index of the
first element of `ls` (reported verbatim as the line number). -/
def jsCatchScan : Nat → List Str → List Violation
  | _, [] => []
  | j, l :: ls =>
    if endsWithL (ofS "\x7d") (trimL l) then []
    else if containsSub (ofS "console.log") l ∨ containsSub (ofS "throw") l then []
    else
      (if trimL l ≠ [] ∧ ¬ startsWithL (ofS "//") (trimL l) then
        [⟨ofS "error_handling", ofS "emptyCatch", ofS "warning", j,
          ofS "Empty catch block or only console.log",
          ofS "Add proper error handling or re-throw", trimL l⟩]
      else []) ++ jsCatchScan (j + 1) ls

/-- The per-line work of `_check_error_handling`; `i` is the 1-based number
of `line`, `rest` the lines after it.  In the Python branch, `rest ≠ []`
models `i < len(lines)` and `rest.headD []` is `lines[i]`. -/
def checkErrorHandlingLine (lang : Str) (i : Nat) (line : Str) (rest : List Str) :
    List Violation :=
  if isJsTs lang ∧ containsSub (ofS "catch") line ∧ containsSub (ofS "\x7b") line then
    jsCatchScan i rest
  else if lang = ofS "python" ∧ containsSub (ofS "except") line then
    if containsSub (ofS ":") line ∧ (endsWithL (ofS ":") (trimL line) ∨
        (rest ≠ [] ∧ ¬ startsWithL (ofS "pass") (trimL (rest.headD [])) ∧
          ¬ startsWithL (ofS "#") (trimL (rest.headD [])))) then
      []
    else
      [⟨ofS "error_handling", ofS "poorExcept", ofS "warning", i,
        ofS "Poor exception handling",
        ofS "Add proper error handling logic", trimL line⟩]
  else []

/-- Iterate `checkErrorHandlingLine` over the file. -/
def checkErrorHandlingGo (lang : Str) : Nat → List Str → List Violation
  | _, [] => []
  | i, line :: rest =>
    checkErrorHandlingLine lang i line rest ++ checkErrorHandlingGo lang (i + 1) rest

/-- `_check_error_handling`. -/
def checkErrorHandling (lang : Str) (_content : Str) (lines : List Str) :
    List Violation :=
  checkErrorHandlingGo lang 1 lines

/-- Does a stripped line start with one of the comment markers the
duplication rule excludes (`startswith(('#', '//', '/*', '*/'))`)? -/
def isCommentStart (s : Str) : Bool :=
  startsWithL (ofS "#") s ∨ startsWithL (ofS "//") s ∨
    startsWithL (ofS "/*") s ∨ startsWithL (ofS "*/") s

/-- Append an occurrence to an insertion-ordered association list, the
embedding of `line_counts[stripped] = line_counts.get(stripped, []) + [i]`
on a Python dict (updates keep the key's position, new keys go last). -/
def addOcc : List (Str × List Nat) → Str → Nat → List (Str × List Nat)
  | [], s, i => [(s, [i])]
  | (k, occs) :: rest, s, i =>
    if k = s then (k, occs ++ [i]) :: rest else (k, occs) :: addOcc rest s i

/-- The key under which `_check_duplication` counts a line: its stripped
text, unless that is empty or starts with a comment marker. -/
def dupKey (line : Str) : Option Str :=
  let stripped := trimL line
  if stripped ≠ [] ∧ ¬ isCommentStart stripped then some stripped else none

/-- One step of the counting loop of `_check_duplication`. -/
def dupStep (m : List (Str × List Nat)) (i : Nat) (line : Str) :
    List (Str × List Nat) :=
  match dupKey line with
  | some stripped => addOcc m stripped i
  | none => m

/-- The `line_counts` dict of `_check_duplication`, in insertion order. -/
def lineCounts (lines : List Str) : List (Str × List Nat) :=
  (enumFrom 1 lines).foldl (fun m (p : Nat × Str) => dupStep m p.1 p.2) []

/-- The violation `_check_duplication` emits for one dict entry. -/
def dupViolOf (s : Str) (occs : List Nat) : Violation :=
  ⟨ofS "duplication", ofS "duplicateCode", ofS "warning", occs.headD 0,
    ofS "Duplicate code found (" ++ natStr occs.length ++ ofS " times)",
    ofS "Extract to a function or utility", s⟩

/-- `_check_duplication`. -/
def checkDuplication (_lang : Str) (_content : Str) (lines : List Str) :
    List Violation :=
  (lineCounts lines).filterMap fun (p : Str × List Nat) =>
    if p.2.length > 2 ∧ p.1.length > 20 then some (dupViolOf p.1 p.2) else none

/-- `_check_complexity`. -/
def checkComplexity (_lang : Str) (_content : Str) (lines : List Str) : List Violation :=
  (enumFrom 1 lines).flatMap fun (i, line) =>
    if startsWithL (ofS "if ") (trimL line) ∨ startsWithL (ofS "for ") (trimL line) ∨
        startsWithL (ofS "while ") (trimL line) ∨ startsWithL (ofS "with ") (trimL line) then
      let nesting := indentOf line
      if nesting > 8 then
        [⟨ofS "complexity", ofS "deepNesting", ofS "warning", i,
          ofS "Deep nesting level (" ++ natStr (nesting / 4) ++ ofS ")",
          ofS "Use guard clauses or extract to function", trimL line⟩]
      else []
    else []

/-- `_check_testability`. -/
def checkTestability (_lang : Str) (_content : Str) (lines : List Str) : List Violation :=
  (enumFrom 1 lines).flatMap fun (i, line) =>
    if containsSub (ofS "new date()") (lowerL line) ∨
        containsSub (ofS "datetime.now()") (lowerL line) ∨
        containsSub (ofS "math.random") (lowerL line) then
      [⟨ofS "testability", ofS "hardcodedDependencies", ofS "warning", i,
        ofS "Hardcoded time/random values make testing difficult",
        ofS "Inject dependencies or use test doubles", trimL line⟩]
    else []

/-- `_check_design_patterns`. -/
def checkDesignPatterns (_lang : Str) (_content : Str) (lines : List Str) :
    List Violation :=
  let classCount := (lines.filter (fun l => containsSub (ofS "class ") l)).length
  if classCount > 10 then
    [⟨ofS "design_patterns", ofS "tooManyClasses", ofS "warning", 1,
      ofS "Too many classes (" ++ natStr classCount ++ ofS ") in single file",
      ofS "Consider breaking into modules", ofS "File structure analysis"⟩]
  else []

/-- The context filter of `_check_magic_numbers`: one of the listed operator
or keyword substrings occurs in the lower-cased line. -/
def magicCtx (line : Str) : Bool :=
  [ofS "=", ofS "+", ofS "-", ofS "*", ofS "/", ofS "if", ofS "for"].any
    fun c => containsSub c (lowerL line)

/-- Does `_check_magic_numbers` emit a violation for the number `num` found
on `line`?  The number must be outside the allow-list, have more than one
digit in its decimal representation, and the line must pass the context
filter. -/
def magicEmits (line : Str) (num : Nat) : Bool :=
  num ∉ [0, 1, 2, 10, 100, 1000] ∧ (natStr num).length > 1 ∧ magicCtx line

/-- The violation `_check_magic_numbers` emits for the number `num` on line
`i` with text `line`. -/
def magicViolOf (i : Nat) (line : Str) (num : Nat) : Violation :=
  ⟨ofS "magic_numbers", ofS "magicNumber", ofS "info", i,
    ofS "Potential magic number: " ++ natStr num,
    ofS "Replace with a named constant", trimL line⟩

/-- The magic-number violations of a single line. -/
def checkMagicLine (i : Nat) (line : Str) : List Violation :=
  (extractNums line).filterMap fun num =>
    if magicEmits line num then some (magicViolOf i line num) else none

/-- `_check_magic_numbers`. -/
def checkMagicNumbers (_lang : Str) (_content : Str) (lines : List Str) :
    List Violation :=
  (enumFrom 1 lines).flatMap fun (i, line) => checkMagicLine i line

/-!
The analysis engine.  `analyze` reads the file, splits it on newlines, runs
every rule of the `self.rules` dict in insertion order inside a
`try/except` that prints a warning and continues on failure, and returns
the violations sorted by the key `(v.severity, v.line_number)` — note that
the first component is the raw severity STRING, compared lexicographically.
Python's `sorted` is stable; we embed it as a stable insertion sort.
-/

/-- Lexicographic comparison of two embedded strings by code point, the
order Python uses to compare `str` values. -/
def cmpStr : Str → Str → Ordering
  | [], [] => .eq
  | [], _ :: _ => .lt
  | _ :: _, [] => .gt
  | a :: as_, b :: bs =>
    if a.toNat < b.toNat then .lt
    else if b.toNat < a.toNat then .gt
    else cmpStr as_ bs

/-- The sort key `(v.severity, v.line_number)` of `analyze`, as a boolean
less-or-equal test. -/
def violLe (v w : Violation) : Bool :=
  match cmpStr v.severity w.severity with
  | .lt => true
  | .eq => v.line_number ≤ w.line_number
  | .gt => false

/-- Insert into a sorted list, before the first element that is not
strictly smaller: together with `insSort` this is a stable sort, so it
agrees with Python's stable `sorted`. -/
def insOrd (le : α → α → Bool) (x : α) : List α → List α
  | [] => [x]
  | y :: ys => if le x y then x :: y :: ys else y :: insOrd le x ys

/-- Stable insertion sort. -/
def insSort (le : α → α → Bool) : List α → List α
  | [] => []
  | x :: xs => insOrd le x (insSort le xs)

/-- A detector rule as the engine sees it: it may raise (`Except.error`),
which the engine turns into a printed warning. -/
abbrev RuleFn := Str → Str → List Str → Except Str (List Violation)

/-- Wrap a total detector as a rule that never raises. -/
def okRule (f : Str → Str → List Str → List Violation) : RuleFn :=
  fun lang content lines => .ok (f lang content lines)

/-- The `self.rules` dict of `CleanCodeAnalyzer.__init__`, in insertion
order. -/
def detectorRules : List (Str × RuleFn) :=
  [(ofS "naming", okRule checkNamingConventions),
   (ofS "functions", okRule checkFunctionDesign),
   (ofS "comments", okRule checkComments),
   (ofS "formatting", okRule checkFormatting),
   (ofS "error_handling", okRule checkErrorHandling),
   (ofS "duplication", okRule checkDuplication),
   (ofS "complexity", okRule checkComplexity),
   (ofS "testability", okRule checkTestability),
   (ofS "design_patterns", okRule checkDesignPatterns),
   (ofS "magic_numbers", okRule checkMagicNumbers)]

/-- Run the rule loop of `analyze`: collect the violations appended by each
rule in order, and a warning message for each rule that raised. -/
def runRules : List (Str × RuleFn) → Str → Str → List Str → List Violation × List Str
  | [], _, _, _ => ([], [])
  | (name, f) :: rest, lang, content, lines =>
    let r := runRules rest lang content lines
    match f lang content lines with
    | .ok vs => (vs ++ r.1, r.2)
    | .error e =>
      (r.1, (ofS "Warning: Rule " ++ name ++ ofS " failed: " ++ e) :: r.2)

/-- `CleanCodeAnalyzer.analyze` over an arbitrary rule table, with the file
content passed directly.  Returns the sorted violation list and the
warnings printed for failed rules. -/
def analyzeWith (rules : List (Str × RuleFn)) (lang content : Str) :
    List Violation × List Str :=
  let lines := splitOnC '\n' content
  let r := runRules rules lang content lines
  (insSort violLe r.1, r.2)

/-- `CleanCodeAnalyzer.analyze` with the analyzer's own rule table. -/
def analyze (lang content : Str) : List Violation :=
  (analyzeWith detectorRules lang content).1

/-!
The transformation engine of `refactor_code.py` (`CleanCodeRefactorer`).
Transformers are pure buffer-to-buffer functions here; the engine wraps
them in `Except` so that a raising transformer can be modeled
(`Except.error`).  File writes are returned as an ordered list of
(path, content) pairs; the timestamp of the backup name is a parameter.
-/

/-- Python `str.replace(pat, rep)` (all non-overlapping occurrences, left
to right).  Fueled with the length of the string, which every step
consumes at least one character of; an empty pattern is left alone (the
source never replaces an empty pattern). -/
def replaceAllGo (pat rep : Str) : Nat → Str → Str
  | 0, l => l
  | _, [] => []
  | fuel + 1, c :: rest =>
    if startsWithL pat (c :: rest) ∧ pat ≠ [] then
      rep ++ replaceAllGo pat rep fuel (rest.drop (pat.length - 1))
    else c :: replaceAllGo pat rep fuel rest

/-- Entry point of `replaceAllGo`. -/
def replaceAll (pat rep l : Str) : Str := replaceAllGo pat rep l.length l

/-- Python `str.replace(pat, rep, 1)`: replace the first occurrence only. -/
def replaceFirstL (pat rep : Str) : Str → Str
  | [] => []
  | c :: rest =>
    if startsWithL pat (c :: rest) ∧ pat ≠ [] then rep ++ rest.drop (pat.length - 1)
    else c :: replaceFirstL pat rep rest

/-- Python `str.capitalize()`: first character upper-cased, the rest
lower-cased. -/
def pyCapitalize : Str → Str
  | [] => []
  | c :: rest => c.toUpper :: rest.map Char.toLower

/-- `CleanCodeRefactorer._to_camel_case`: split on underscores, keep the
first component, capitalize and append the others. -/
def toCamelCase (s : Str) : Str :=
  match splitOnC '_' s with
  | [] => []
  | c0 :: rest => c0 ++ (rest.map pyCapitalize).flatten

/-- `CleanCodeRefactorer._to_snake_case`: an underscore before every
internal upper-case character, everything lower-cased. -/
def toSnakeCase (s : Str) : Str :=
  (enumFrom 0 s).flatMap fun (p : Nat × Char) =>
    if p.2.isUpper ∧ p.1 > 0 then ['_', p.2.toLower] else [p.2.toLower]

/-- `CleanCodeRefactorer._break_js_line`. -/
def breakJsLine (line : Str) : Str :=
  if containsSub (ofS "+") line ∧ ¬ containsSub (ofS "template") line then
    match splitOnC '+' line with
    | p0 :: p1 :: ps =>
      let spaces : Str := List.replicate (indentOf line) ' '
      p0 ++ ofS " +\n" ++ spaces ++ joinSep (ofS " + ") (p1 :: ps)
    | _ => line
  else line

/-- `CleanCodeRefactorer._break_python_line`. -/
def breakPythonLine (line : Str) : Str :=
  if containsSub (ofS "(") line ∧ containsSub (ofS ")") line then
    match splitOnC '(' line with
    | p0 :: p1 :: _ =>
      let indent := indentOf line
      p0 ++ ofS "(\n" ++ List.replicate (indent + 4) ' ' ++
        joinSep (ofS ", ") (splitOnC ',' p1) ++ ofS "\n" ++
        List.replicate indent ' ' ++ ofS ")"
    | _ => line
  else line

/-- `_fix_naming_conventions`. -/
def fixNamingConventions (lang : Str) (buf : List Str) : List Str :=
  if isJsTs lang then
    buf.map fun line =>
      subKwIdent [ofS "function"] lowerAlphaC identTailC toCamelCase
        (subKwIdent [ofS "let", ofS "const", ofS "var"] lowerAlphaC identTailC
          toCamelCase line)
  else if lang = ofS "python" then
    buf.map fun line =>
      subKwIdent [ofS "class"] upperAlphaC identTailC toSnakeCase
        (subKwIdent [ofS "def"] lowerAlphaC identTailC toSnakeCase line)
  else buf

/-- `_shorten_functions`. -/
def shortenFunctions (lang : Str) (buf : List Str) : List Str :=
  if isJsTs lang then
    buf.map fun line => if line.length ≤ 80 then line else breakJsLine line
  else
    buf.map fun line => if line.length ≤ 80 then line else breakPythonLine line

/-- `_remove_trailing_whitespace`. -/
def removeTrailingWhitespace (_lang : Str) (buf : List Str) : List Str :=
  buf.map fun line => rstripL line ++ [ '\n' ]

/-- `_break_long_lines`. -/
def breakLongLines (lang : Str) (buf : List Str) : List Str :=
  buf.map fun line =>
    if line.length > 100 then
      if isJsTs lang then breakJsLine line else breakPythonLine line
    else line

/-- The `magic_numbers` dict of `_extract_constants`, in insertion order. -/
def magicConstTable : List (Str × Str) :=
  [(ofS "1000", ofS "MAX_ITEMS"), (ofS "100", ofS "DEFAULT_TIMEOUT"),
   (ofS "50", ofS "MAX_RESULTS"), (ofS "10", ofS "DEFAULT_LIMIT"),
   (ofS "5", ofS "RETRY_COUNT")]

/-- The constant-declaration line `_extract_constants` inserts. -/
def declLineOf (lang num const : Str) : Str :=
  if lang = ofS "python" then const ++ ofS " = " ++ num ++ [ '\n' ]
  else ofS "const " ++ const ++ ofS " = " ++ num ++ ofS ";\n"

/-- The inner `for num, const_name in magic_numbers.items()` loop of
`_extract_constants`, threading the local index `i`, the shared line list,
and the local `line` being rewritten. -/
def ecInner (lang : Str) : List (Str × Str) → Nat × List Str × Str → Nat × List Str × Str
  | [], st => st
  | (num, const) :: rest, (i, ls, line) =>
    if containsSub num line then
      let st2 : Nat × List Str :=
        if i > 0 ∧ ¬ (ls.take i).any (fun l => containsSub const l) then
          (i + 1, ls.insertIdx i (declLineOf lang num const))
        else (i, ls)
      ecInner lang rest (st2.1, st2.2, replaceAll num const line)
    else ecInner lang rest (i, ls, line)

/-- The outer `for i, line in enumerate(self.refactored_lines)` loop of
`_extract_constants`.  Python's list iterator fetches index `k` from the
CURRENT (possibly grown) list; the write-back happens at the shifted local
index.  Each iteration advances `k` by one, so the loop runs at most
final-length times; the fuel in `extractConstants` strictly exceeds that
bound for every input, making the recursion structural. -/
def ecLoop (lang : Str) : Nat → Nat → List Str → List Str
  | 0, _, ls => ls
  | fuel + 1, k, ls =>
    if k < ls.length then
      let r := ecInner lang magicConstTable (k, ls, ls.getD k [])
      ecLoop lang fuel (k + 1) (r.2.1.set r.1 r.2.2)
    else ls

/-- `_extract_constants`.  The loop can insert at most one declaration
line per table entry per visited position, and every iteration advances
the fetch index, so `length + 30` fuel is never exhausted. -/
def extractConstants (lang : Str) (buf : List Str) : List Str :=
  ecLoop lang (buf.length + 30) 0 buf

/-- One iteration of `_improve_error_handling` at index `k` (writes at `k`
and `k + 1` are visible to later iterations). -/
def improveErrStep (lang : Str) (k : Nat) (ls : List Str) : List Str :=
  let line := ls.getD k []
  if isJsTs lang then
    if containsSub (ofS "catch () \x7b") line then
      let ls2 := ls.set k (replaceAll (ofS "catch () \x7b") (ofS "catch (error) \x7b") line)
      if k + 1 < ls2.length then
        ls2.set (k + 1) (ofS "    console.error('Error:', error);\n" ++ ls2.getD (k + 1) [])
      else ls2
    else ls
  else if lang = ofS "python" then
    if trimL line = ofS "except:" ∧ k + 1 < ls.length then
      if trimL (ls.getD (k + 1) []) = ofS "pass" then
        (ls.set k (replaceAll (ofS "except:") (ofS "except Exception as e:") line)).set
          (k + 1) (ofS "    logger.error(f'Error: \x7be\x7d')\n")
      else ls
    else ls
  else ls

/-- The index loop of `_improve_error_handling`; the buffer length never
changes, so fuel equal to the length is exactly enough. -/
def improveErrGo (lang : Str) : Nat → Nat → List Str → List Str
  | 0, _, ls => ls
  | fuel + 1, k, ls =>
    if k < ls.length then improveErrGo lang fuel (k + 1) (improveErrStep lang k ls)
    else ls

/-- `_improve_error_handling`. -/
def improveErrorHandling (lang : Str) (buf : List Str) : List Str :=
  improveErrGo lang buf.length 0 buf

/-- `_remove_useless_comments`. -/
def removeUselessComments (_lang : Str) (buf : List Str) : List Str :=
  buf.map fun line =>
    let stripped := trimL line
    if startsWithL (ofS "//") stripped ∧
        (startsWithL (ofS "// todo") (lowerL stripped) ∨
         startsWithL (ofS "// fixme") (lowerL stripped) ∨
         startsWithL (ofS "// hack") (lowerL stripped) ∨
         startsWithL (ofS "// this function") (lowerL stripped)) then
      replaceFirstL stripped [] line
    else line

/-- The result dict of `CleanCodeRefactorer.refactor`.  `rules_applied`
models the Python set as a duplicate-free list in insertion order.  On the
failure path the source omits the backup and count keys; they are modeled
as `none` and `0`. -/
structure RefResult where
  success : Bool
  rules_applied : List Str
  backup_file : Option Str
  changes_count : Int
  error : Option Str
deriving DecidableEq

/-- A transformer as the engine sees it: it may raise. -/
abbrev TransFn := Str → List Str → Except Str (List Str)

/-- Wrap a total transformer as one that never raises. -/
def okTrans (f : Str → List Str → List Str) : TransFn :=
  fun lang buf => .ok (f lang buf)

/-- The `_get_all_rules` dict, in insertion order. -/
def transformerTable : List (Str × TransFn) :=
  [(ofS "fix_naming", okTrans fixNamingConventions),
   (ofS "shorten_functions", okTrans shortenFunctions),
   (ofS "remove_trailing_whitespace", okTrans removeTrailingWhitespace),
   (ofS "break_long_lines", okTrans breakLongLines),
   (ofS "extract_constants", okTrans extractConstants),
   (ofS "improve_error_handling", okTrans improveErrorHandling),
   (ofS "remove_useless_comments", okTrans removeUselessComments)]

/-- Dict lookup by rule name. -/
def findRule : List (Str × TransFn) → Str → Option TransFn
  | [], _ => none
  | (k, v) :: rest, n => if k = n then some v else findRule rest n

/-- Add a name to the `rules_applied` set. -/
def addName (app : List Str) (n : Str) : List Str :=
  if n ∈ app then app else app ++ [n]

/-- The explicit-rule-list branch of `refactor` (NO per-rule `try`):
unknown names are skipped silently, and a raising transformer aborts the
whole loop with the rules applied so far and the error. -/
def applyExplicit (table : List (Str × TransFn)) (lang : Str) :
    List Str → List Str → List Str → Except (List Str × Str) (List Str × List Str)
  | [], buf, app => .ok (buf, app)
  | n :: rest, buf, app =>
    match findRule table n with
    | none => applyExplicit table lang rest buf app
    | some f =>
      match f lang buf with
      | .ok buf2 => applyExplicit table lang rest buf2 (addName app n)
      | .error e => .error (app, e)

/-- The apply-all branch of `refactor` (per-rule `try/except` that prints
a warning): returns the final buffer, the applied names (accumulated in
`app`), and the warnings in emission order. -/
def applyAll (lang : Str) : List (Str × TransFn) → List Str → List Str →
    List Str × List Str × List Str
  | [], buf, app => (buf, app, [])
  | (n, f) :: rest, buf, app =>
    match f lang buf with
    | .ok buf2 => applyAll lang rest buf2 (addName app n)
    | .error e =>
      let r := applyAll lang rest buf app
      (r.1, r.2.1, (ofS "Warning: Rule " ++ n ++ ofS " failed: " ++ e) :: r.2.2)

/-- The rule-application phase of `refactor`: the explicit branch when a
non-empty rule list was passed (Python `if rules:` truthiness), the
apply-all branch otherwise. -/
def applyPhase (table : List (Str × TransFn)) (lang : Str) (lines : List Str)
    (ruleNames : Option (List Str)) :
    Except (List Str × Str) (List Str × List Str × List Str) :=
  match ruleNames with
  | some names =>
    if names = [] then .ok (applyAll lang table lines [])
    else
      match applyExplicit table lang names lines [] with
      | .ok (buf, app) => .ok (buf, app, [])
      | .error pr => .error pr
  | none => .ok (applyAll lang table lines [])

/-- The save phase of `refactor`: on success with a non-empty applied set,
write the timestamped backup of the original lines and then the mutated
buffer; on an exception from the explicit branch, return the failure
result without writing. -/
def saveRefactor (path ts : Str) (lines : List Str) :
    Except (List Str × Str) (List Str × List Str × List Str) →
      RefResult × List (Str × Str) × List Str
  | .error (app, e) => (⟨false, app, none, 0, some e⟩, [], [])
  | .ok (buf, app, warns) =>
    if app ≠ [] then
      let bpath := path ++ ofS ".backup." ++ ts
      (⟨true, app, some bpath, (buf.length : Int) - (lines.length : Int), none⟩,
        [(bpath, joinL lines), (path, joinL buf)], warns)
    else (⟨true, [], none, 0, none⟩, [], warns)

/-- `CleanCodeRefactorer.refactor` over an arbitrary transformer table.
The file's current content and the timestamp used in the backup name are
passed in; the writes the call performs are returned in order as
(path, content) pairs, and the warnings printed by the apply-all branch
come third. -/
def refactorWith (table : List (Str × TransFn)) (lang path content ts : Str)
    (ruleNames : Option (List Str)) : RefResult × List (Str × Str) × List Str :=
  let lines := readlinesL content
  saveRefactor path ts lines (applyPhase table lang lines ruleNames)

/-- `CleanCodeRefactorer.refactor` with the refactorer's own rule table. -/
def refactor (lang path content ts : Str) (ruleNames : Option (List Str)) :
    RefResult × List (Str × Str) × List Str :=
  refactorWith transformerTable lang path content ts ruleNames

/-!
Definitions used only to state the claims.
-/

/-- The warning line printed when a rule raises (both engines use the same
format). -/
def warnMsgOf (name e : Str) : Str :=
  ofS "Warning: Rule " ++ name ++ ofS " failed: " ++ e

/-- A detector rule that always raises. -/
def errRule (e : Str) : RuleFn := fun _ _ _ => .error e

/-- A transformer that always raises. -/
def errTrans (e : Str) : TransFn := fun _ _ => .error e

/-- The severity rank the severity-ordering claim asserts (modelled from
the claim's words, for comparison with the code): error before warning
before info. -/
def specSeverityRank (s : Str) : Nat :=
  if s = ofS "error" then 0 else if s = ofS "warning" then 1 else 2

/-- Is a violation list ordered the way the severity-ordering claim
asserts: by `specSeverityRank`, then by ascending line number (modelled
from the claim's words, for comparison with the code)? -/
def specOrdered : List Violation → Bool
  | [] => true
  | [_] => true
  | v :: w :: rest =>
    (specSeverityRank v.severity < specSeverityRank w.severity ∨
      (specSeverityRank v.severity = specSeverityRank w.severity ∧
        v.line_number ≤ w.line_number)) ∧ specOrdered (w :: rest)

/-- A two-line python file holding a trailing-whitespace line (info,
line 1) followed by a 101-character line (warning, line 2). -/
def mixedSeverityFile : Str := ofS "x = 1   \n" ++ List.replicate 101 'a'

/-- The end-to-end scenario file: the literal 999 in an assignment on
line 1, a bare `except:` whose next line is `pass`, and a 30-character
line (26 letters, 4 trailing spaces) on line 5. -/
def scenarioFile : Str :=
  ofS "total = 999\ntry:\nexcept:\n    pass\nabcdefghijklmnopqrstuvwxyz    "

/-- A JS file holding one function: the opening line, `n` plain body
lines, and the closing brace, `n + 2` lines in all. -/
def braceFile (n : Nat) : List Str :=
  ofS "function f() \x7b" :: List.replicate n (ofS "  g();") ++ [ofS "\x7d"]

/-- A JS file whose function contains a nested brace block: the inner
close brace on line 20 must not end the function (depth returns to zero
only on line 21). -/
def braceNestedFile : List Str :=
  ofS "function f() \x7b" :: ofS "  if (x) \x7b" ::
    List.replicate 17 (ofS "    g();") ++ [ofS "  \x7d", ofS "\x7d"]

/-- A 25-character non-comment line. -/
def dupLine : Str := ofS "abcdefghijklmnopqrstuvwxy"

/-- The refactorer's transformer table extended with a rule that raises. -/
def boomTable : List (Str × TransFn) :=
  transformerTable ++ [(ofS "boom", errTrans (ofS "kaboom"))]

/-- Lookup in the occurrence map. -/
def findOcc : List (Str × List Nat) → Str → Option (List Nat)
  | [], _ => none
  | (k, v) :: rest, s => if k = s then some v else findOcc rest s

/-- The occurrences of key `s` among an enumerated line list. -/
def occOf (es : List (Nat × Str)) (s : Str) : List Nat :=
  es.filterMap fun p => if dupKey p.2 = some s then some p.1 else none

/-- The 1-based line numbers at which the duplication rule counts key
`s`. -/
def occList (lines : List Str) (s : Str) : List Nat := occOf (enumFrom 1 lines) s

/-- The counting fold over an enumerated line list. -/
def foldCounts (es : List (Nat × Str)) (m : List (Str × List Nat)) :
    List (Str × List Nat) :=
  es.foldl (fun m p => dupStep m p.1 p.2) m

/-- Merging an existing lookup result with occurrences found later. -/
def combineOcc : Option (List Nat) → List Nat → Option (List Nat)
  | none, l => if l = [] then none else some l
  | some o, l => some (o ++ l)

/-- The keys of the occurrence map. -/
def keysOf (m : List (Str × List Nat)) : List Str := m.map Prod.fst

/-!
General lemmas about the string helpers.
-/

theorem length_dropWhile_le (p : Char → Bool) (l : Str) :
    (l.dropWhile p).length ≤ l.length := by
  induction l with
  | nil => simp
  | cons c rest ih =>
    by_cases h : p c
    · simp only [List.dropWhile_cons, h, if_true]
      exact Nat.le_trans ih (Nat.le_succ _)
    · simp [List.dropWhile_cons, h]

theorem dropWhile_idem (p : Char → Bool) (l : Str) :
    (l.dropWhile p).dropWhile p = l.dropWhile p := by
  induction l with
  | nil => simp
  | cons c rest ih =>
    by_cases h : p c
    · simpa [List.dropWhile_cons, h] using ih
    · simp [List.dropWhile_cons, h]

theorem rstripL_idem (l : Str) : rstripL (rstripL l) = rstripL l := by
  simp [rstripL, dropWhile_idem]

theorem lstripL_idem (l : Str) : lstripL (lstripL l) = lstripL l := by
  simp [lstripL, dropWhile_idem]

/-- A `dropWhile` over a list ending in `c` is empty or still ends in `c`. -/
theorem dropWhile_concat_getLast (p : Char → Bool) (z : Str) (c : Char) :
    (z ++ [c]).dropWhile p = [] ∨ ((z ++ [c]).dropWhile p).getLast? = some c := by
  induction z with
  | nil =>
    by_cases h : p c
    · left; simp [List.dropWhile_cons, h]
    · right; simp [List.dropWhile_cons, h]
  | cons d z ih =>
    by_cases h : p d
    · simpa [List.dropWhile_cons, h] using ih
    · right
      simp only [List.cons_append, List.dropWhile_cons, h]
      simpa using List.getLast?_concat (a := c) (d :: z)

/-- A string with no leading whitespace keeps that property under
`rstrip`. -/
theorem lstripL_rstripL_of_lstripL (y : Str) (h : lstripL y = y) :
    lstripL (rstripL y) = rstripL y := by
  cases y with
  | nil => simp [rstripL, lstripL]
  | cons c t =>
    have hc : isSpaceC c = false := by
      by_contra hcc
      have hc' : isSpaceC c = true := by
        cases hx : isSpaceC c
        · exact absurd hx hcc
        · rfl
      have : lstripL (c :: t) = lstripL t := by simp [lstripL, List.dropWhile_cons, hc']
      have hlen := length_dropWhile_le isSpaceC t
      rw [h] at this
      have : (c :: t).length = (lstripL t).length := congrArg List.length this
      simp only [List.length_cons, lstripL] at this
      omega
    have hrev : (c :: t).reverse = t.reverse ++ [c] := by simp
    rcases dropWhile_concat_getLast isSpaceC t.reverse c with hz | hz
    · simp [rstripL, hrev, hz, lstripL]
    · have hhead : ((t.reverse ++ [c]).dropWhile isSpaceC).reverse.head? = some c := by
        rw [List.head?_reverse]; exact hz
      rw [rstripL, hrev]
      cases hw : ((t.reverse ++ [c]).dropWhile isSpaceC).reverse with
      | nil => simp [lstripL]
      | cons d w =>
        rw [hw] at hhead
        simp only [List.head?_cons, Option.some.injEq] at hhead
        subst hhead
        simp [lstripL, List.dropWhile_cons, hc]

theorem trimL_idem (l : Str) : trimL (trimL l) = trimL l := by
  have h1 : lstripL (trimL l) = trimL l :=
    lstripL_rstripL_of_lstripL (lstripL l) (lstripL_idem l)
  show rstripL (lstripL (trimL l)) = trimL l
  rw [h1]
  exact rstripL_idem (lstripL l)

/-- Stripping trailing whitespace, appending a newline, and stripping again
gives the first strip back. -/
theorem rstripL_rstripL_append_nl (l : Str) :
    rstripL (rstripL l ++ [ '\n' ]) = rstripL l := by
  have h : (rstripL l ++ [ '\n' ]).reverse = '\n' :: (l.reverse.dropWhile isSpaceC) := by
    simp [rstripL]
  rw [rstripL, h]
  have hnl : isSpaceC '\n' = true := by decide
  simp [List.dropWhile_cons, hnl, dropWhile_idem, rstripL]

/-- Joining what `readlines` produced gives the content back. -/
theorem joinL_readlinesL (c : Str) : joinL (readlinesL c) = c := by
  induction c with
  | nil => simp [readlinesL, joinL]
  | cons d rest ih =>
    by_cases h : d = '\n'
    · subst h
      simp only [readlinesL, if_true]
      simpa [joinL] using ih
    · simp only [readlinesL, h, if_false]
      cases hr : readlinesL rest with
      | nil =>
        rw [hr] at ih
        simp only [joinL, List.foldr_nil] at ih
        simp [joinL, ← ih]
      | cons s ss =>
        rw [hr] at ih
        simp only [joinL, List.foldr_cons] at ih ⊢
        simp [← ih]

/-- Containment of a single character is list membership. -/
theorem containsSub_singleton (c : Char) (l : Str) :
    containsSub [c] l = true ↔ c ∈ l := by
  induction l with
  | nil => simp [containsSub]
  | cons d rest ih =>
    simp only [containsSub, startsWithL, List.mem_cons]
    constructor
    · intro h
      rcases (by simpa using h : (c = d ∧ True) ∨ containsSub [c] rest = true) with h1 | h1
      · exact Or.inl h1.1
      · exact Or.inr (ih.mp h1)
    · intro h
      rcases h with h1 | h1
      · simp [h1]
      · simp [ih.mpr h1]

/-- `filterMap` with a guarded `some` is a filter followed by a map. -/
theorem filterMap_guard {α β : Type} (p : α → Bool) (f : α → β) (l : List α) :
    l.filterMap (fun a => if p a then some (f a) else none) = (l.filter p).map f := by
  induction l with
  | nil => simp
  | cons a rest ih =>
    by_cases h : p a
    · simp [List.filterMap_cons, List.filter_cons, h, ih]
    · simp [List.filterMap_cons, List.filter_cons, h, ih]

/-!
Lemmas about the string order and the stable sort used by `analyze`.
-/

theorem charToNat_inj {a b : Char} (h : a.toNat = b.toNat) : a = b :=
  Char.ext (UInt32.ext h)

theorem cmpStr_eq_iff (s t : Str) : cmpStr s t = .eq ↔ s = t := by
  induction s generalizing t with
  | nil => cases t <;> simp [cmpStr]
  | cons a as ih =>
    cases t with
    | nil => simp [cmpStr]
    | cons b bs =>
      by_cases h1 : a.toNat < b.toNat
      · simp only [cmpStr, h1, if_true]
        constructor
        · intro h; cases h
        · intro h
          rw [List.cons.injEq] at h
          rw [h.1] at h1
          omega
      · by_cases h2 : b.toNat < a.toNat
        · simp only [cmpStr, h1, h2, if_false, if_true]
          constructor
          · intro h; cases h
          · intro h
            rw [List.cons.injEq] at h
            rw [h.1] at h2
            omega
        · have hab : a = b := charToNat_inj (by omega)
          subst hab
          simp only [cmpStr, h1, h2, if_false]
          rw [ih bs]
          simp

theorem cmpStr_gt_iff (s t : Str) : cmpStr s t = .gt ↔ cmpStr t s = .lt := by
  induction s generalizing t with
  | nil => cases t <;> simp [cmpStr]
  | cons a as ih =>
    cases t with
    | nil => simp [cmpStr]
    | cons b bs =>
      by_cases h1 : a.toNat < b.toNat
      · have h2 : ¬ b.toNat < a.toNat := by omega
        simp [cmpStr, h1, h2]
      · by_cases h2 : b.toNat < a.toNat
        · simp [cmpStr, h1, h2]
        · simp [cmpStr, h1, h2, ih bs]

theorem cmpStr_lt_trans {s t u : Str} (h1 : cmpStr s t = .lt) (h2 : cmpStr t u = .lt) :
    cmpStr s u = .lt := by
  induction s generalizing t u with
  | nil =>
    cases u with
    | nil =>
      cases t with
      | nil => cases h2
      | cons b bs => cases h2
    | cons c cs => simp [cmpStr]
  | cons a as ih =>
    cases t with
    | nil => cases h1
    | cons b bs =>
      cases u with
      | nil => cases h2
      | cons c cs =>
        by_cases hab : a.toNat < b.toNat <;> by_cases hbc : b.toNat < c.toNat
        · have : a.toNat < c.toNat := by omega
          simp [cmpStr, this]
        · by_cases hcb : c.toNat < b.toNat
          · simp only [cmpStr, hbc, hcb, if_false, if_true] at h2; cases h2
          · have : b.toNat = c.toNat := by omega
            have hbceq : b = c := charToNat_inj this
            subst hbceq
            simp [cmpStr, hab]
        · by_cases hba : b.toNat < a.toNat
          · simp only [cmpStr, hab, hba, if_false, if_true] at h1; cases h1
          · have hab2 : a = b := charToNat_inj (by omega)
            subst hab2
            simp [cmpStr, hbc]
        · by_cases hba : b.toNat < a.toNat
          · simp only [cmpStr, hab, hba, if_false, if_true] at h1; cases h1
          · by_cases hcb : c.toNat < b.toNat
            · simp only [cmpStr, hbc, hcb, if_false, if_true] at h2; cases h2
            · have hab2 : a = b := charToNat_inj (by omega)
              have hbc2 : b = c := charToNat_inj (by omega)
              subst hab2; subst hbc2
              simp only [cmpStr, lt_irrefl, if_false] at h1 h2 ⊢
              exact ih h1 h2

theorem violLe_total (v w : Violation) : violLe v w = true ∨ violLe w v = true := by
  unfold violLe
  cases h : cmpStr v.severity w.severity with
  | lt => left; rfl
  | gt =>
    right
    rw [(cmpStr_gt_iff _ _).mp h]
  | eq =>
    have hs : v.severity = w.severity := (cmpStr_eq_iff _ _).mp h
    have h2 : cmpStr w.severity v.severity = .eq := by
      rw [cmpStr_eq_iff]; exact hs.symm
    rw [h2]
    rcases Nat.le_total v.line_number w.line_number with hle | hle
    · left; simpa using hle
    · right; simpa using hle

theorem violLe_trans {u v w : Violation} (h1 : violLe u v = true)
    (h2 : violLe v w = true) : violLe u w = true := by
  unfold violLe at h1 h2 ⊢
  cases huv : cmpStr u.severity v.severity with
  | gt => rw [huv] at h1; cases h1
  | lt =>
    cases hvw : cmpStr v.severity w.severity with
    | gt => rw [hvw] at h2; cases h2
    | lt => rw [cmpStr_lt_trans huv hvw]
    | eq =>
      have : v.severity = w.severity := (cmpStr_eq_iff _ _).mp hvw
      rw [← this, huv]
  | eq =>
    have huv2 : u.severity = v.severity := (cmpStr_eq_iff _ _).mp huv
    cases hvw : cmpStr v.severity w.severity with
    | gt => rw [hvw] at h2; cases h2
    | lt => rw [huv2, hvw]
    | eq =>
      have hvw2 : v.severity = w.severity := (cmpStr_eq_iff _ _).mp hvw
      rw [huv] at h1
      rw [hvw] at h2
      rw [huv2, hvw]
      simp only [decide_eq_true_eq] at h1 h2 ⊢
      omega

theorem mem_insOrd {α : Type} (le : α → α → Bool) (x z : α) (l : List α) :
    z ∈ insOrd le x l ↔ z = x ∨ z ∈ l := by
  induction l with
  | nil => simp [insOrd]
  | cons y ys ih =>
    by_cases h : le x y
    · rw [insOrd, if_pos h]
      simp
    · rw [insOrd, if_neg h]
      simp only [List.mem_cons, ih]
      tauto

theorem pairwise_insOrd {α : Type} (le : α → α → Bool)
    (htot : ∀ a b, le a b = true ∨ le b a = true)
    (htrans : ∀ a b c, le a b = true → le b c = true → le a c = true)
    (x : α) (l : List α) (h : l.Pairwise (fun a b => le a b = true)) :
    (insOrd le x l).Pairwise (fun a b => le a b = true) := by
  induction l with
  | nil => simp [insOrd]
  | cons y ys ih =>
    rw [List.pairwise_cons] at h
    by_cases hxy : le x y
    · rw [insOrd, if_pos hxy]
      rw [List.pairwise_cons]
      refine ⟨?_, List.pairwise_cons.mpr h⟩
      intro z hz
      rcases List.mem_cons.mp hz with h1 | h1
      · subst h1; exact hxy
      · exact htrans _ _ _ hxy (h.1 z h1)
    · rw [insOrd, if_neg hxy]
      rw [List.pairwise_cons]
      refine ⟨?_, ih h.2⟩
      intro z hz
      rcases (mem_insOrd le x z ys).mp hz with h1 | h1
      · rw [h1]
        rcases htot x y with h2 | h2
        · exact absurd h2 hxy
        · exact h2
      · exact h.1 z h1

theorem pairwise_insSort {α : Type} (le : α → α → Bool)
    (htot : ∀ a b, le a b = true ∨ le b a = true)
    (htrans : ∀ a b c, le a b = true → le b c = true → le a c = true)
    (l : List α) : (insSort le l).Pairwise (fun a b => le a b = true) := by
  induction l with
  | nil => simp [insSort]
  | cons a xs ih => exact pairwise_insOrd le htot htrans a (insSort le xs) ih

/-!
Lemmas about the duplication counter.
-/

theorem lineCounts_eq_foldCounts (lines : List Str) :
    lineCounts lines = foldCounts (enumFrom 1 lines) [] := rfl

theorem findOcc_addOcc (m : List (Str × List Nat)) (t s : Str) (i : Nat) :
    findOcc (addOcc m t i) s =
      if s = t then some ((findOcc m s).getD [] ++ [i]) else findOcc m s := by
  induction m with
  | nil =>
    by_cases h : s = t
    · subst h; simp [addOcc, findOcc]
    · have h2 : ¬ t = s := fun hh => h hh.symm
      simp [addOcc, findOcc, h, h2]
  | cons kv rest ih =>
    obtain ⟨k, v⟩ := kv
    by_cases hk : k = t
    · by_cases hs : k = s
      · have hst : s = t := by rw [← hs, hk]
        simp [addOcc, findOcc, hk, hs, hst]
      · have hst : ¬ s = t := by
          intro hh
          exact hs (by rw [hk, ← hh])
        have hts : ¬ t = s := fun hh => hst hh.symm
        simp [addOcc, findOcc, hk, hs, hst, hts]
    · by_cases hs : k = s
      · have hst : ¬ s = t := by
          intro hh
          exact hk (by rw [hs, hh])
        simp [addOcc, findOcc, hk, hs, hst]
      · simp [addOcc, findOcc, hk, hs, ih]

theorem foldCounts_find (es : List (Nat × Str)) (m : List (Str × List Nat)) (s : Str) :
    findOcc (foldCounts es m) s = combineOcc (findOcc m s) (occOf es s) := by
  induction es generalizing m with
  | nil =>
    cases h : findOcc m s <;> simp [foldCounts, occOf, combineOcc, h]
  | cons p rest ih =>
    obtain ⟨i, line⟩ := p
    cases hk : dupKey line with
    | none =>
      have hstep : dupStep m i line = m := by simp [dupStep, hk]
      have hocc : occOf ((i, line) :: rest) s = occOf rest s := by
        simp [occOf, List.filterMap_cons, hk]
      rw [hocc]
      show findOcc (foldCounts rest (dupStep m i line)) s = _
      rw [hstep]
      exact ih m
    | some t =>
      show findOcc (foldCounts rest (dupStep m i line)) s = _
      have hstep : dupStep m i line = addOcc m t i := by simp [dupStep, hk]
      rw [hstep, ih (addOcc m t i), findOcc_addOcc]
      by_cases hs : s = t
      · subst hs
        have hocc : occOf ((i, line) :: rest) s = i :: occOf rest s := by
          simp [occOf, List.filterMap_cons, hk]
        rw [hocc]
        simp only [if_pos rfl]
        cases h : findOcc m s with
        | none => simp [combineOcc]
        | some o => simp [combineOcc]
      · have hts : ¬ (some t = some s) := fun hh => hs (Option.some.inj hh).symm
        have hocc : occOf ((i, line) :: rest) s = occOf rest s := by
          simp only [occOf, List.filterMap_cons, hk]
          rw [if_neg hts]
        rw [hocc, if_neg hs]

theorem keysOf_addOcc (m : List (Str × List Nat)) (t : Str) (i : Nat) :
    keysOf (addOcc m t i) =
      if t ∈ keysOf m then keysOf m else keysOf m ++ [t] := by
  induction m with
  | nil => simp [addOcc, keysOf]
  | cons kv rest ih =>
    obtain ⟨k, v⟩ := kv
    by_cases hk : k = t
    · subst hk
      simp [addOcc, keysOf]
    · have hk2 : ¬ t = k := fun hh => hk hh.symm
      simp only [addOcc, if_neg hk, keysOf, List.map_cons, List.mem_cons, hk2,
        false_or]
      by_cases ht : t ∈ keysOf rest
      · simp only [keysOf] at ht
        simp [ht, keysOf] at ih ⊢
        rw [ih]
      · simp only [keysOf] at ht
        simp [ht, keysOf] at ih ⊢
        rw [ih]

theorem nodup_keysOf_addOcc (m : List (Str × List Nat)) (t : Str) (i : Nat)
    (h : (keysOf m).Nodup) : (keysOf (addOcc m t i)).Nodup := by
  rw [keysOf_addOcc]
  by_cases ht : t ∈ keysOf m
  · simpa [ht] using h
  · simp only [ht, if_false]
    rw [List.nodup_append]
    refine ⟨h, List.nodup_singleton t, ?_⟩
    intro a ha hb
    rw [List.mem_singleton] at hb
    rw [hb] at ha
    exact ht ha

theorem nodup_keysOf_foldCounts (es : List (Nat × Str)) (m : List (Str × List Nat))
    (h : (keysOf m).Nodup) : (keysOf (foldCounts es m)).Nodup := by
  induction es generalizing m with
  | nil => exact h
  | cons p rest ih =>
    obtain ⟨i, line⟩ := p
    show (keysOf (foldCounts rest (dupStep m i line))).Nodup
    cases hk : dupKey line with
    | none =>
      have hstep : dupStep m i line = m := by simp [dupStep, hk]
      rw [hstep]
      exact ih m h
    | some t =>
      have hstep : dupStep m i line = addOcc m t i := by simp [dupStep, hk]
      rw [hstep]
      exact ih _ (nodup_keysOf_addOcc m t i h)

theorem mem_iff_findOcc (m : List (Str × List Nat)) (s : Str) (occs : List Nat)
    (h : (keysOf m).Nodup) : (s, occs) ∈ m ↔ findOcc m s = some occs := by
  induction m with
  | nil => simp [findOcc]
  | cons kv rest ih =>
    obtain ⟨k, v⟩ := kv
    simp only [keysOf, List.map_cons, List.nodup_cons] at h
    constructor
    · intro hm
      rcases List.mem_cons.mp hm with h1 | h1
      · rw [Prod.mk.injEq] at h1
        simp [findOcc, h1.1.symm, h1.2]
      · have hs : s ∈ keysOf rest := by
          simp only [keysOf]
          exact List.mem_map.mpr ⟨(s, occs), h1, rfl⟩
        have hks : ¬ k = s := by
          intro hh
          rw [hh] at h
          exact h.1 (by simpa [keysOf] using hs)
        simp only [findOcc, if_neg hks]
        exact ((ih h.2).mp h1)
    · intro hf
      by_cases hks : k = s
      · rw [findOcc, if_pos hks] at hf
        have hv : v = occs := Option.some.inj hf
        exact List.mem_cons.mpr (Or.inl (by rw [← hks, ← hv]))
      · rw [findOcc, if_neg hks] at hf
        exact List.mem_cons.mpr (Or.inr ((ih h.2).mpr hf))

/-!
Lemmas about the two engines' rule loops.
-/

theorem runRules_append (a b : List (Str × RuleFn)) (lang content : Str)
    (lines : List Str) :
    runRules (a ++ b) lang content lines =
      ((runRules a lang content lines).1 ++ (runRules b lang content lines).1,
       (runRules a lang content lines).2 ++ (runRules b lang content lines).2) := by
  induction a with
  | nil => simp [runRules]
  | cons nf rest ih =>
    obtain ⟨name, f⟩ := nf
    show runRules ((name, f) :: (rest ++ b)) lang content lines = _
    rw [runRules, ih, runRules]
    cases f lang content lines <;> simp

theorem runRules_errRule (name e lang content : Str) (lines : List Str) :
    runRules [(name, errRule e)] lang content lines = ([], [warnMsgOf name e]) := rfl

theorem applyAll_append (lang : Str) (a b : List (Str × TransFn)) (buf app : List Str) :
    applyAll lang (a ++ b) buf app =
      ((applyAll lang b (applyAll lang a buf app).1 (applyAll lang a buf app).2.1).1,
       (applyAll lang b (applyAll lang a buf app).1 (applyAll lang a buf app).2.1).2.1,
       (applyAll lang a buf app).2.2 ++
         (applyAll lang b (applyAll lang a buf app).1 (applyAll lang a buf app).2.1).2.2) := by
  induction a generalizing buf app with
  | nil => simp [applyAll]
  | cons nf rest ih =>
    obtain ⟨n, f⟩ := nf
    show applyAll lang ((n, f) :: (rest ++ b)) buf app = _
    rw [applyAll]
    conv_rhs => rw [applyAll]
    cases hf : f lang buf with
    | ok buf2 =>
      dsimp only
      exact ih buf2 (addName app n)
    | error e =>
      dsimp only
      rw [ih buf app]
      simp

theorem applyAll_errTrans_cons (lang e n : Str) (rest : List (Str × TransFn))
    (buf app : List Str) :
    applyAll lang ((n, errTrans e) :: rest) buf app =
      ((applyAll lang rest buf app).1, (applyAll lang rest buf app).2.1,
        warnMsgOf n e :: (applyAll lang rest buf app).2.2) := rfl

theorem applyExplicit_append (table : List (Str × TransFn)) (lang : Str)
    (xs ys : List Str) (buf app : List Str) :
    applyExplicit table lang (xs ++ ys) buf app =
      match applyExplicit table lang xs buf app with
      | .ok (b, a) => applyExplicit table lang ys b a
      | .error pr => .error pr := by
  induction xs generalizing buf app with
  | nil => simp [applyExplicit]
  | cons n rest ih =>
    show applyExplicit table lang (n :: (rest ++ ys)) buf app = _
    rw [applyExplicit]
    conv_rhs => rw [applyExplicit]
    cases hr : findRule table n with
    | none =>
      dsimp only
      rw [ih]
    | some f =>
      dsimp only
      cases hf : f lang buf with
      | ok buf2 =>
        dsimp only
        rw [ih]
      | error e => rfl

theorem runRules_errRule_cons (name e : Str) (rest : List (Str × RuleFn))
    (lang content : Str) (lines : List Str) :
    runRules ((name, errRule e) :: rest) lang content lines =
      ((runRules rest lang content lines).1,
        warnMsgOf name e :: (runRules rest lang content lines).2) := rfl

theorem saveRefactor_ok (path ts : Str) (lines buf app warns : List Str) :
    saveRefactor path ts lines (.ok (buf, app, warns)) =
      ((saveRefactor path ts lines (.ok (buf, app, []))).1,
       (saveRefactor path ts lines (.ok (buf, app, []))).2.1, warns) := by
  by_cases h : app = [] <;> simp [saveRefactor, h]

theorem jsFuncBody_mid_close (n : Nat) :
    jsFuncBody 1 (List.replicate n (ofS "  g();") ++ [ofS "\x7d"]) =
      List.replicate n (ofS "  g();") ++ [ofS "\x7d"] := by
  induction n with
  | zero => decide
  | succ k ih =>
    rw [List.replicate_succ, List.cons_append, jsFuncBody]
    have h0 : braceDelta (ofS "  g();") = 0 := by decide
    rw [h0]
    simp only [if_pos (by decide : (1 : Int) > 0)]
    rw [show (1 : Int) + 0 = 1 by omega, ih]

theorem checkFDGo_mid_close (i n : Nat) :
    checkFunctionDesignGo (ofS "js") i
      (List.replicate n (ofS "  g();") ++ [ofS "\x7d"]) = [] := by
  have h1 : isJsTs (ofS "js") = true := by decide
  have h2 : containsSub (ofS "function ") (ofS "  g();") = false := by decide
  have h3 : containsSub (ofS "function ") (ofS "\x7d") = false := by decide
  induction n generalizing i with
  | zero =>
    simp [checkFunctionDesignGo, checkFunctionDesignLine, h1, h3]
  | succ k ih =>
    rw [List.replicate_succ, List.cons_append, checkFunctionDesignGo]
    rw [ih (i + 1)]
    simp [checkFunctionDesignLine, h1, h2]

theorem dupKey_trimL (line : Str) : dupKey (trimL line) = dupKey line := by
  simp [dupKey, trimL_idem]

theorem enumFrom_map {α β : Type} (f : α → β) (k : Nat) (ls : List α) :
    enumFrom k (ls.map f) = (enumFrom k ls).map (fun p => (p.1, f p.2)) := by
  induction ls generalizing k with
  | nil => simp [enumFrom]
  | cons a rest ih => simp [enumFrom, ih]

theorem foldCounts_map_trim (es : List (Nat × Str)) (m : List (Str × List Nat)) :
    foldCounts (es.map (fun p => (p.1, trimL p.2))) m = foldCounts es m := by
  induction es generalizing m with
  | nil => rfl
  | cons p rest ih =>
    obtain ⟨i, line⟩ := p
    show foldCounts (rest.map _) (dupStep m i (trimL line)) =
      foldCounts rest (dupStep m i line)
    have : dupStep m i (trimL line) = dupStep m i line := by
      simp [dupStep, dupKey_trimL]
    rw [this, ih]

theorem saveRefactor_fst_ok (path ts : Str) (lines buf app w : List Str) :
    (saveRefactor path ts lines (.ok (buf, app, w))).1 =
      (saveRefactor path ts lines (.ok (buf, app, []))).1 := by
  by_cases h : app = [] <;> simp [saveRefactor, h]

theorem saveRefactor_writes_ok (path ts : Str) (lines buf app w : List Str) :
    (saveRefactor path ts lines (.ok (buf, app, w))).2.1 =
      (saveRefactor path ts lines (.ok (buf, app, []))).2.1 := by
  by_cases h : app = [] <;> simp [saveRefactor, h]

theorem saveRefactor_warns_ok (path ts : Str) (lines buf app w : List Str) :
    (saveRefactor path ts lines (.ok (buf, app, w))).2.2 = w := by
  by_cases h : app = [] <;> simp [saveRefactor, h]

/-!
The claims.
-/

/-- C8: the naming case-conversion functions satisfy the two concrete
round-trip instances: `_to_camel_case` sends `my_var_name` to `myVarName`
(the brace-language convention) and `_to_snake_case` sends `myVarName` to
`my_var_name` (the indentation-language convention). -/
theorem c8_naming_round_trip :
    toCamelCase (ofS "my_var_name") = ofS "myVarName" ∧
    toSnakeCase (ofS "myVarName") = ofS "my_var_name" := by
  decide

/-- C9: the trailing-whitespace-removal transformer is idempotent: for
every line buffer (and language), applying it twice produces a buffer
identical to applying it once. -/
theorem c9_trailing_whitespace_idempotent (lang : Str) (buf : List Str) :
    removeTrailingWhitespace lang (removeTrailingWhitespace lang buf) =
      removeTrailingWhitespace lang buf := by
  unfold removeTrailingWhitespace
  rw [List.map_map]
  have hfun : ((fun line => rstripL line ++ [ '\n' ]) ∘ fun line => rstripL line ++ [ '\n' ]) =
      fun line : Str => rstripL line ++ [ '\n' ] := by
    funext l
    show rstripL (rstripL l ++ [ '\n' ]) ++ [ '\n' ] = rstripL l ++ [ '\n' ]
    rw [rstripL_rstripL_append_nl]
  rw [hfun]

/-- C2 counterexample: on the end-to-end scenario file the analyzer
reports two violations, not three, and no `poorExcept` violation at all
(the claim asserts exactly three violations, one of them a `poorExcept`
warning). -/
theorem c2_counterexample :
    (analyze (ofS "python") scenarioFile).length = 2 ∧
    ((analyze (ofS "python") scenarioFile).filter
      (fun v => v.rule_name = ofS "poorExcept")).length = 0 := by
  decide

/-- C2 amended: on the end-to-end scenario file the analyzer reports
exactly two violations: one `magicNumber` (info) referencing 999 on line 1
and one `trailingWhitespace` (info) on line 5.  No `poorExcept` is
reported: the error-handling detector skips every `except` line that ends
in a colon, which a bare `except:` does. -/
theorem c2_scenario_two_violations :
    analyze (ofS "python") scenarioFile =
      [magicViolOf 1 (ofS "total = 999") 999,
       ⟨ofS "formatting", ofS "trailingWhitespace", ofS "info", 5,
         ofS "Line has trailing whitespace", ofS "Remove trailing whitespace",
         ofS "abcdefghijklmnopqrstuvwxyz"⟩] := by
  decide

/-- C1 counterexample: the claim's order (error before warning before
info) fails on a file producing an info violation on line 1 and a warning
violation on line 2: the analyzer returns the info first, because it
sorts by the severity string and `"info" < "warning"` lexicographically. -/
theorem c1_counterexample :
    specOrdered (analyze (ofS "python") mixedSeverityFile) = false ∧
    (analyze (ofS "python") mixedSeverityFile).map
      (fun v => (v.severity, v.line_number)) =
      [(ofS "info", 1), (ofS "warning", 2)] := by
  decide

/-- C1 amended: for every input, the list returned by `analyze` is sorted
by the pair (severity string, line number), the severity strings compared
lexicographically — which places `error` first, then `info`, then
`warning` — and ties in severity ordered by ascending line number. -/
theorem c1_sorted_by_severity_string (lang content : Str) :
    (analyze lang content).Pairwise (fun v w => violLe v w = true) ∧
    cmpStr (ofS "error") (ofS "info") = .lt ∧
    cmpStr (ofS "info") (ofS "warning") = .lt := by
  refine ⟨?_, by decide, by decide⟩
  show (insSort violLe
    (runRules detectorRules lang content (splitOnC '\n' content)).1).Pairwise _
  exact pairwise_insSort violLe violLe_total
    (fun a b c h1 h2 => violLe_trans h1 h2) _

/-- C5: the magic-number detector's per-line violations are exactly the
extracted numbers passing `magicEmits`; the literal 100 never passes (it
is on the allow-list); the literal 42 passes whenever the line contains
`=` (an operator context); and 42 does not pass on a line with no
operator or control-flow-keyword context. -/
theorem c5_magic_allowlist :
    (∀ i line, checkMagicLine i line =
      ((extractNums line).filter (fun num => magicEmits line num)).map
        (magicViolOf i line)) ∧
    (∀ line, magicEmits line 100 = false) ∧
    (∀ line, containsSub (ofS "=") line = true → magicEmits line 42 = true) ∧
    (∀ line, magicCtx line = false → magicEmits line 42 = false) := by
  refine ⟨?_, ?_, ?_, ?_⟩
  · intro i line
    exact filterMap_guard _ _ _
  · intro line
    simp only [magicEmits]
    apply decide_eq_false
    intro hcon
    exact hcon.1 (by decide)
  · intro line h
    have hmem : ('=' : Char) ∈ line := (containsSub_singleton '=' line).mp h
    have hmem2 : ('=' : Char) ∈ lowerL line :=
      List.mem_map.mpr ⟨'=', hmem, by decide⟩
    have hctx : magicCtx line = true := by
      simp only [magicCtx, List.any_cons, Bool.or_eq_true]
      exact Or.inl ((containsSub_singleton '=' (lowerL line)).mpr hmem2)
    simp only [magicEmits, decide_eq_true_eq]
    exact ⟨by decide, by decide, hctx⟩
  · intro line h
    simp only [magicEmits]
    apply decide_eq_false
    intro hcon
    have := hcon.2.2
    rw [h] at this
    cases this

/-- C5 witness: the detector's emission test, applied through the theorem
at concrete lines: 42 next to an `=` is flagged, 42 with no operator or
keyword context is not. -/
theorem c5_magic_allowlist_witness :
    magicEmits (ofS "x = 42") 42 = true ∧
    magicEmits (ofS "print(42)") 42 = false :=
  ⟨c5_magic_allowlist.2.2.1 (ofS "x = 42") (by decide),
   c5_magic_allowlist.2.2.2 (ofS "print(42)") (by decide)⟩

/-- C6: the JS function-length detector delimits the function by a
brace-depth count from the opening line until depth returns to zero, and
flags it exactly when that span exceeds 20 lines: a 20-line function
(18 body lines) is not flagged, a 21-line function is, and a 21-line
function whose inner brace block closes on line 20 is still flagged —
the scan does not stop at the first closing brace. -/
theorem c6_function_length_boundary :
    (∀ n : Nat, checkFunctionDesign (ofS "js") [] (braceFile n) ≠ [] ↔ 20 < n + 2) ∧
    checkFunctionDesign (ofS "js") [] (braceFile 18) = [] ∧
    (braceFile 18).length = 20 ∧
    (checkFunctionDesign (ofS "js") [] (braceFile 19)).map Violation.rule_name =
      [ofS "functionLength"] ∧
    (braceFile 19).length = 21 ∧
    (checkFunctionDesign (ofS "js") [] braceNestedFile).map Violation.rule_name =
      [ofS "functionLength"] ∧
    braceNestedFile.length = 21 := by
  refine ⟨?_, by decide, by decide, by decide, by decide, by decide, by decide⟩
  intro n
  have h1 : isJsTs (ofS "js") = true := by decide
  have h2 : containsSub (ofS "function ") (ofS "function f() \x7b") = true := by decide
  have h3 : braceDelta (ofS "function f() \x7b") = 1 := by decide
  have hGo : ∀ (lng : Str) (i : Nat) (line : Str) (rest : List Str),
      checkFunctionDesignGo lng i (line :: rest) =
        checkFunctionDesignLine lng i line rest ++
          checkFunctionDesignGo lng (i + 1) rest := fun _ _ _ _ => rfl
  show checkFunctionDesignGo (ofS "js") 1 (braceFile n) ≠ [] ↔ 20 < n + 2
  rw [braceFile, List.cons_append, hGo, checkFDGo_mid_close, List.append_nil]
  rw [checkFunctionDesignLine]
  rw [if_pos h1, if_pos h2, h3, jsFuncBody_mid_close]
  have hlen : (ofS "function f() \x7b" ::
      (List.replicate n (ofS "  g();") ++ [ofS "\x7d"])).length = n + 2 := by
    simp
  dsimp only
  rw [hlen]
  by_cases hn : 20 < n + 2
  · rw [if_pos (by omega : n + 2 > 20)]
    simp [hn]
  · rw [if_neg (by omega : ¬ n + 2 > 20)]
    simp [hn]

/-- C7: every entry of the duplication rule's occurrence map records
exactly the 1-based line numbers whose counted (stripped, non-comment)
text is the key, and the rule flags an entry exactly when the key
occurred more than twice and is longer than 20 characters; the emitted
violation carries the first occurrence line and the occurrence count. -/
theorem c7_duplication_threshold (lines : List Str) (s : Str) (occs : List Nat)
    (hmem : (s, occs) ∈ lineCounts lines) :
    occs = occList lines s ∧
    ∀ lang content,
      (dupViolOf s occs ∈ checkDuplication lang content lines ↔
        2 < occs.length ∧ 20 < s.length) := by
  have hnodup : (keysOf (lineCounts lines)).Nodup := by
    rw [lineCounts_eq_foldCounts]
    exact nodup_keysOf_foldCounts _ [] (by simp [keysOf])
  have hfind : findOcc (lineCounts lines) s = some occs :=
    (mem_iff_findOcc _ _ _ hnodup).mp hmem
  have hcomb : findOcc (lineCounts lines) s =
      combineOcc (findOcc [] s) (occList lines s) := by
    rw [lineCounts_eq_foldCounts]
    exact foldCounts_find _ [] s
  rw [hfind] at hcomb
  have hocc : occs = occList lines s := by
    by_cases h : occList lines s = []
    · rw [h] at hcomb
      simp [findOcc, combineOcc] at hcomb
    · simp only [findOcc, combineOcc, if_neg h] at hcomb
      exact Option.some.inj hcomb
  refine ⟨hocc, ?_⟩
  intro lang content
  constructor
  · intro hv
    simp only [checkDuplication] at hv
    rcases List.mem_filterMap.mp hv with ⟨p, hm2, heq⟩
    obtain ⟨s2, occs2⟩ := p
    by_cases hcond : occs2.length > 2 ∧ s2.length > 20
    · rw [if_pos hcond] at heq
      have heq2 := Option.some.inj heq
      have hs2 : s2 = s := congrArg Violation.code_snippet heq2
      rw [hs2] at hm2
      have : findOcc (lineCounts lines) s = some occs2 :=
        (mem_iff_findOcc _ _ _ hnodup).mp hm2
      rw [hfind] at this
      have hoccs2 : occs2 = occs := (Option.some.inj this).symm
      rw [hoccs2] at hcond
      rw [hs2] at hcond
      exact ⟨hcond.1, hcond.2⟩
    · rw [if_neg hcond] at heq
      cases heq
  · intro hb
    simp only [checkDuplication]
    refine List.mem_filterMap.mpr ⟨(s, occs), hmem, ?_⟩
    rw [if_pos ⟨hb.1, hb.2⟩]

/-- C7 witness: the theorem applied to a 25-character line repeated three
times: the entry is counted at lines 1, 2, 3 and the rule flags it with
count 3 and first line 1. -/
theorem c7_duplication_threshold_witness :
    [1, 2, 3] = occList (List.replicate 3 dupLine) dupLine ∧
    ∀ lang content,
      (dupViolOf dupLine [1, 2, 3] ∈
          checkDuplication lang content (List.replicate 3 dupLine) ↔
        2 < ([1, 2, 3] : List Nat).length ∧ 20 < dupLine.length) :=
  c7_duplication_threshold (List.replicate 3 dupLine) dupLine [1, 2, 3] (by decide)

/-- C10: the duplication rule's comment exclusion is whitespace-tolerant
and its map is keyed on stripped text: counting is unchanged when every
line is replaced by its stripped form, a line whose stripped text starts
with a comment marker contributes nothing to the counts regardless of
indentation, and the rule's output is likewise invariant under
stripping. -/
theorem c10_comment_exclusion :
    (∀ lines : List Str, lineCounts (lines.map trimL) = lineCounts lines) ∧
    (∀ (m : List (Str × List Nat)) (i : Nat) (line : Str),
      isCommentStart (trimL line) = true → dupStep m i line = m) ∧
    (∀ lang content (lines : List Str),
      checkDuplication lang content (lines.map trimL) =
        checkDuplication lang content lines) := by
  have h1 : ∀ lines : List Str, lineCounts (lines.map trimL) = lineCounts lines := by
    intro lines
    rw [lineCounts_eq_foldCounts, lineCounts_eq_foldCounts, enumFrom_map,
      foldCounts_map_trim]
  refine ⟨h1, ?_, ?_⟩
  · intro m i line h
    have hk : dupKey line = none := by
      simp [dupKey, h]
    simp [dupStep, hk]
  · intro lang content lines
    simp only [checkDuplication]
    rw [h1]

/-- C10 witness: an indented comment line contributes nothing to the
counting step. -/
theorem c10_comment_exclusion_witness :
    dupStep [] 1 (ofS "   # indented comment") = [] :=
  c10_comment_exclusion.2.1 [] 1 (ofS "   # indented comment") (by decide)

/-- C3 counterexample: refactoring a file no rule changes (content
`"x\n"`, all rules) still reports all seven rules as applied, writes a
backup, and overwrites the target with content identical to the backup —
the claim's "no rule applied a change → untouched, empty rule set, no
backup" and "target differs from the backup" both fail. -/
theorem c3_counterexample :
    (refactor (ofS "python") (ofS "f.py") (ofS "x\n") (ofS "20260101_000000")
        none).1.success = true ∧
    (refactor (ofS "python") (ofS "f.py") (ofS "x\n") (ofS "20260101_000000")
        none).1.rules_applied.length = 7 ∧
    (refactor (ofS "python") (ofS "f.py") (ofS "x\n") (ofS "20260101_000000")
        none).2.1 =
      [(ofS "f.py.backup.20260101_000000", ofS "x\n"), (ofS "f.py", ofS "x\n")] := by
  decide

/-- C3 amended: for every refactor call that succeeds, if `rules_applied`
is non-empty — it records every rule that executed without raising, not
the rules that changed the buffer — a timestamped backup holding exactly
the pre-refactor original is written first and the target is then
overwritten with the final buffer, which may equal the original; if
`rules_applied` is empty, nothing is written and no backup is
reported. -/
theorem c3_backup_behavior (table : List (Str × TransFn))
    (lang path content ts : Str) (ruleNames : Option (List Str))
    (h : (refactorWith table lang path content ts ruleNames).1.success = true) :
    ((refactorWith table lang path content ts ruleNames).1.rules_applied = [] →
      (refactorWith table lang path content ts ruleNames).2.1 = [] ∧
      (refactorWith table lang path content ts ruleNames).1.backup_file = none) ∧
    ((refactorWith table lang path content ts ruleNames).1.rules_applied ≠ [] →
      ∃ buf,
        (refactorWith table lang path content ts ruleNames).2.1 =
          [(path ++ ofS ".backup." ++ ts, content), (path, joinL buf)] ∧
        (refactorWith table lang path content ts ruleNames).1.backup_file =
          some (path ++ ofS ".backup." ++ ts)) := by
  have hjoin : joinL (readlinesL content) = content := joinL_readlinesL content
  rcases ho : applyPhase table lang (readlinesL content) ruleNames with pr | t
  · obtain ⟨app, e⟩ := pr
    rw [refactorWith, ho] at h
    cases h
  · obtain ⟨buf, app, warns⟩ := t
    by_cases happ : app = []
    · rw [happ] at ho
      constructor
      · intro _
        rw [refactorWith, ho]
        simp [saveRefactor]
      · intro hne
        rw [refactorWith, ho] at hne
        simp [saveRefactor] at hne
    · constructor
      · intro he
        rw [refactorWith, ho] at he
        simp only [saveRefactor, if_pos happ] at he
        exact absurd he happ
      · intro _
        refine ⟨buf, ?_, ?_⟩
        · rw [refactorWith, ho]
          simp only [saveRefactor, if_pos happ]
          rw [hjoin]
        · rw [refactorWith, ho]
          simp only [saveRefactor, if_pos happ]

/-- C3 witness: the amended theorem applied to the all-rules refactor of
the one-line file `"x\n"`. -/
theorem c3_backup_behavior_witness :
    ∃ buf,
      (refactorWith transformerTable (ofS "python") (ofS "f.py") (ofS "x\n")
          (ofS "t") none).2.1 =
        [(ofS "f.py" ++ ofS ".backup." ++ ofS "t", ofS "x\n"),
         (ofS "f.py", joinL buf)] ∧
      (refactorWith transformerTable (ofS "python") (ofS "f.py") (ofS "x\n")
          (ofS "t") none).1.backup_file =
        some (ofS "f.py" ++ ofS ".backup." ++ ofS "t") :=
  (c3_backup_behavior transformerTable (ofS "python") (ofS "f.py") (ofS "x\n")
      (ofS "t") none (by decide)).2 (by decide)

/-- C4 counterexample: with an explicit rule list, a raising transformer
DOES abort the refactor call: the result reports failure, the later
`fix_naming` rule is neither run nor recorded, and nothing is written —
contradicting the claim's "including when an explicit rule_names list was
supplied". -/
theorem c4_counterexample :
    (refactorWith boomTable (ofS "python") (ofS "f.py") (ofS "a \n") (ofS "t")
        (some [ofS "remove_trailing_whitespace", ofS "boom", ofS "fix_naming"])).1.success
        = false ∧
    (refactorWith boomTable (ofS "python") (ofS "f.py") (ofS "a \n") (ofS "t")
        (some [ofS "remove_trailing_whitespace", ofS "boom", ofS "fix_naming"])).1.rules_applied
        = [ofS "remove_trailing_whitespace"] ∧
    (refactorWith boomTable (ofS "python") (ofS "f.py") (ofS "a \n") (ofS "t")
        (some [ofS "remove_trailing_whitespace", ofS "boom", ofS "fix_naming"])).2.1
        = [] := by
  decide

/-- C4 amended: a raising detector rule is skipped with a printed warning
and does not change the violation list `analyze` returns; in the
apply-all path of `refactor` a raising transformer is likewise skipped
with a warning, leaving the result and the writes unchanged; but when an
explicit rule list is supplied, a raising transformer aborts the call:
the remaining rules do not run and the call returns a failure result
carrying the rules applied so far, with no file written. -/
theorem c4_rule_isolation :
    (∀ (pre post : List (Str × RuleFn)) (name e lang content : Str),
      (analyzeWith (pre ++ (name, errRule e) :: post) lang content).1 =
        (analyzeWith (pre ++ post) lang content).1 ∧
      warnMsgOf name e ∈
        (analyzeWith (pre ++ (name, errRule e) :: post) lang content).2) ∧
    (∀ (pre post : List (Str × TransFn)) (n e lang path content ts : Str),
      (refactorWith (pre ++ (n, errTrans e) :: post) lang path content ts none).1 =
        (refactorWith (pre ++ post) lang path content ts none).1 ∧
      (refactorWith (pre ++ (n, errTrans e) :: post) lang path content ts none).2.1 =
        (refactorWith (pre ++ post) lang path content ts none).2.1 ∧
      warnMsgOf n e ∈
        (refactorWith (pre ++ (n, errTrans e) :: post) lang path content ts none).2.2) ∧
    (∀ (table : List (Str × TransFn)) (lang path content ts : Str)
        (names1 : List Str) (n : Str) (names2 : List Str) (f : TransFn)
        (e : Str) (buf1 app1 : List Str),
      findRule table n = some f →
      applyExplicit table lang names1 (readlinesL content) [] = .ok (buf1, app1) →
      f lang buf1 = .error e →
      refactorWith table lang path content ts (some (names1 ++ n :: names2)) =
        (⟨false, app1, none, 0, some e⟩, [], [])) := by
  refine ⟨?_, ?_, ?_⟩
  · intro pre post name e lang content
    constructor
    · simp only [analyzeWith, runRules_append, runRules_errRule_cons]
    · simp only [analyzeWith, runRules_append, runRules_errRule_cons]
      simp [List.mem_append]
  · intro pre post n e lang path content ts
    have hbad := applyAll_append lang pre ((n, errTrans e) :: post)
      (readlinesL content) []
    rw [applyAll_errTrans_cons] at hbad
    have hgood := applyAll_append lang pre post (readlinesL content) []
    have hphase1 : applyPhase (pre ++ (n, errTrans e) :: post) lang
        (readlinesL content) none =
        .ok (applyAll lang (pre ++ (n, errTrans e) :: post) (readlinesL content) []) := rfl
    have hphase2 : applyPhase (pre ++ post) lang (readlinesL content) none =
        .ok (applyAll lang (pre ++ post) (readlinesL content) []) := rfl
    refine ⟨?_, ?_, ?_⟩
    · rw [refactorWith, refactorWith, hphase1, hphase2, hbad, hgood]
      dsimp only
      exact (saveRefactor_fst_ok _ _ _ _ _ _).trans
        (saveRefactor_fst_ok _ _ _ _ _ _).symm
    · rw [refactorWith, refactorWith, hphase1, hphase2, hbad, hgood]
      dsimp only
      exact (saveRefactor_writes_ok _ _ _ _ _ _).trans
        (saveRefactor_writes_ok _ _ _ _ _ _).symm
    · rw [refactorWith, hphase1, hbad]
      dsimp only
      rw [saveRefactor_warns_ok]
      simp [List.mem_append]
  · intro table lang path content ts names1 n names2 f e buf1 app1 hfind happ herr
    have hsplit := applyExplicit_append table lang names1 (n :: names2)
      (readlinesL content) []
    rw [happ] at hsplit
    dsimp only at hsplit
    have hstep : applyExplicit table lang (n :: names2) buf1 app1 =
        .error (app1, e) := by
      rw [applyExplicit, hfind]
      dsimp only
      rw [herr]
    rw [hstep] at hsplit
    have hne : names1 ++ n :: names2 ≠ [] := by simp
    rw [refactorWith]
    show saveRefactor path ts (readlinesL content)
      (applyPhase table lang (readlinesL content) (some (names1 ++ n :: names2))) = _
    rw [applyPhase]
    rw [if_neg hne, hsplit]
    rfl

/-- C4 witness: the explicit-list part of the theorem applied to the
transformer table extended with a raising rule: after
`remove_trailing_whitespace` succeeds, `boom` raises and the call returns
the failure result with no writes. -/
theorem c4_rule_isolation_witness :
    refactorWith boomTable (ofS "python") (ofS "f.py") (ofS "a \n") (ofS "t")
      (some ([ofS "remove_trailing_whitespace"] ++ ofS "boom" :: [ofS "fix_naming"])) =
      (⟨false, [ofS "remove_trailing_whitespace"], none, 0, some (ofS "kaboom")⟩,
        [], []) :=
  c4_rule_isolation.2.2 boomTable (ofS "python") (ofS "f.py") (ofS "a \n")
    (ofS "t") [ofS "remove_trailing_whitespace"] (ofS "boom") [ofS "fix_naming"]
    (errTrans (ofS "kaboom")) (ofS "kaboom") [ofS "a\n"]
    [ofS "remove_trailing_whitespace"] rfl rfl rfl

end CCC
